import Mathlib

/-!
Verification of the lease-store extended-info index and the TCP listener
connection lifecycle of this repository.

The repository snapshot ships the unit tests of both subsystems
(MemfileExtendedInfoTest in src/unnamed/part_000 and TcpListenerTest in
src/src/lib/tcp/tests/tcp_listener_unittests.cc) together with a few
headers, while the implementation translation units themselves are not
part of the snapshot.  The definitions below therefore embed the two
subsystems as described by the specification (spec.md sections 3, 4.1,
4.2, 4.3, 4.5), and where the tests shipped with the repository pin a
concrete behaviour (for example the exact contents of the extended-info
tables after a sequence of insertions) the embedding follows the tests.

Addresses are 128-bit IPv6 addresses embedded as natural numbers,
identifiers (relay-id, remote-id, DUID) are byte strings embedded as
lists of naturals, and the audit-trail payloads are strings.
-/

namespace KeaSpec

/-- Modelled from the spec: the transient extended-info action tag of a
lease (spec section 3, "extended-info action tag (ignore/update/delete)").
The implementation enumeration `Lease::ACTION_IGNORE/UPDATE/DELETE` is not
under src/; the tag drives the `updateLease` branches of spec section 4.1. -/
inductive ExtAction where
  | ignore
  | update
  | delete
  deriving DecidableEq, Repr

/-- Modelled from the spec: the v6 lease type (spec section 3: non-temporary
address, temporary address, prefix delegation). -/
inductive LeaseType where
  | na
  | ta
  | pd
  deriving DecidableEq, Repr

/-- Modelled from the spec: a v6 lease (spec section 3).  The opaque
user-context blob "may embed relay/remote identifiers"; the user-context
parsing code is not under src/, and by spec section 4.1 a malformed encoding
is treated as "no identifier present", so the context is embedded as the
two optional parsed identifier byte strings `relayId` and `remoteId`. -/
structure Lease6 where
  leaseType : LeaseType
  addr : Nat
  duid : List Nat
  iaid : Nat
  preferredLft : Nat
  validLft : Nat
  subnetId : Nat
  relayId : Option (List Nat)
  remoteId : Option (List Nat)
  action : ExtAction
  deriving DecidableEq, Repr

/-- Modelled from the spec: an Extended-Info Entry mapping a lease address
to one parsed identifier byte string (spec section 3). -/
structure ExtEntry where
  leaseAddr : Nat
  id : List Nat
  deriving DecidableEq, Repr

/-- Modelled from the spec: the state of the memfile lease store for the
v6 universe: the authoritative lease collection, the two extended-info
tables (`relay_id6_`, `remote_id6_`) and the extended-info-tables enabled
flag (spec sections 4.1 and 4.2). -/
structure MemfileState where
  leases6 : List Lease6
  relayId6 : List ExtEntry
  remoteId6 : List ExtEntry
  tablesEnabled : Bool
  deriving DecidableEq, Repr

/-- Modelled from the spec: `Memfile_LeaseMgr::addRelayId6` (the `addEntry`
operation of spec section 4.2 on the relay-id table).  The implementation is
not under src/; the insertion semantics follow the repository test
MemfileExtendedInfoTest.relayIdTable6 (src/unnamed/part_000 lines 386-398),
which requires the table to hold six entries after six insertions that
include an identical duplicated (address, identifier) pair: the entry is
appended unconditionally, duplicates included. -/
def addRelayId6 (s : MemfileState) (leaseAddr : Nat) (relayId : List Nat) :
    MemfileState :=
  { s with relayId6 := s.relayId6 ++ [⟨leaseAddr, relayId⟩] }

/-- Modelled from the spec: `Memfile_LeaseMgr::addRemoteId6` (the `addEntry`
operation of spec section 4.2 on the remote-id table); insertion semantics
follow MemfileExtendedInfoTest.remoteIdTable6 exactly as for `addRelayId6`:
the entry is appended unconditionally, duplicates included. -/
def addRemoteId6 (s : MemfileState) (leaseAddr : Nat) (remoteId : List Nat) :
    MemfileState :=
  { s with remoteId6 := s.remoteId6 ++ [⟨leaseAddr, remoteId⟩] }

/-- Modelled from the spec: `Memfile_LeaseMgr::deleteExtendedInfo6`, the
`deleteEntriesForAddress` operation of spec section 4.2: removes all entries
(in both tables) whose lease address matches; no-op if none exist.  The
operation never fails: it is a total function. -/
def deleteExtendedInfo6 (s : MemfileState) (a : Nat) : MemfileState :=
  { s with
    relayId6 := s.relayId6.filter (fun e => e.leaseAddr ≠ a),
    remoteId6 := s.remoteId6.filter (fun e => e.leaseAddr ≠ a) }

/-- Modelled from the spec: `addLease` (spec section 4.1): fails if the
address is already present (`DuplicateEntry`, embedded as a `false` first
component); on success appends the lease, and if extended-info indexing is
enabled inserts the entries encoded by the user-context.  Side effect: the
transient action tag of the lease is cleared to ignore; the returned lease
is the stored one. -/
def addLease (s : MemfileState) (l : Lease6) : Bool × MemfileState × Lease6 :=
  if s.leases6.any (fun x => x.addr = l.addr) then (false, s, l)
  else
    let l2 := { l with action := ExtAction.ignore }
    let s2 := { s with leases6 := s.leases6 ++ [l2] }
    let s3 :=
      if s.tablesEnabled then
        let sr :=
          match l.relayId with
          | some rid => addRelayId6 s2 l.addr rid
          | none => s2
        match l.remoteId with
        | some mid => addRemoteId6 sr l.addr mid
        | none => sr
      else s2
    (true, s3, l2)

/-- Modelled from the spec: `updateLease6` (spec section 4.1): fails if the
address is absent (`NoSuchLease`, embedded as a `false` first component);
otherwise replaces the stored lease and branches on the action tag: ignore
leaves the tables untouched, delete removes the entries of this address
from both tables, update removes them and re-derives entries from the new
user-context.  When the tables are disabled the tables are untouched for
every branch (MemfileExtendedInfoTest.updateLease6deleteDisabled).  The tag
is reset to ignore after processing, regardless of branch. -/
def updateLease6 (s : MemfileState) (l : Lease6) : Bool × MemfileState × Lease6 :=
  if s.leases6.any (fun x => x.addr = l.addr) then
    let l2 := { l with action := ExtAction.ignore }
    let s2 := { s with
      leases6 := s.leases6.map (fun x => if x.addr = l.addr then l2 else x) }
    let s3 :=
      if s.tablesEnabled then
        match l.action with
        | ExtAction.ignore => s2
        | ExtAction.delete => deleteExtendedInfo6 s2 l.addr
        | ExtAction.update =>
          let sd := deleteExtendedInfo6 s2 l.addr
          let sr :=
            match l.relayId with
            | some rid => addRelayId6 sd l.addr rid
            | none => sd
          match l.remoteId with
          | some mid => addRemoteId6 sr l.addr mid
          | none => sr
      else s2
    (true, s3, l2)
  else (false, s, l)

/-- Modelled from the spec: `deleteLease` (spec section 4.1): removes the
lease; if indexing is enabled, removes all Extended-Info Entries for that
address (a no-op when there are none).  The action tag of the returned
lease is cleared to ignore, as the repository test
MemfileExtendedInfoTest.deleteLease6 requires. -/
def deleteLease (s : MemfileState) (l : Lease6) : Bool × MemfileState × Lease6 :=
  if s.leases6.any (fun x => x.addr = l.addr) then
    let l2 := { l with action := ExtAction.ignore }
    let s2 := { s with leases6 := s.leases6.filter (fun x => x.addr ≠ l.addr) }
    let s3 := if s.tablesEnabled then deleteExtendedInfo6 s2 l.addr else s2
    (true, s3, l2)
  else (false, s, l)

/-- Insert a natural number into an ascending duplicate-free list, keeping
it ascending and duplicate-free.  Used to embed the ordered address sets
produced by the paginated queries of spec section 4.1 ("in ascending
address order", each matching address reported once). -/
def sortInsert (a : Nat) : List Nat → List Nat
  | [] => [a]
  | b :: l => if a < b then a :: b :: l else if a = b then b :: l else b :: sortInsert a l

/-- Ascending duplicate-free list of the members of `l`. -/
def sortDedup (l : List Nat) : List Nat := l.foldr sortInsert []

/-- Last element of an address list, 0 when empty.  Embeds "the last
returned address" used as the pagination cursor (spec section 4.1). -/
def lastAddr : List Nat → Nat
  | [] => 0
  | [a] => a
  | _ :: b :: t => lastAddr (b :: t)

/-- Addresses paired with the identifier `ident` in the table `t`, in table
order (duplicates possible). -/
def tableAddrsFor (t : List ExtEntry) (ident : List Nat) : List Nat :=
  (t.filter (fun e => e.id = ident)).map (fun e => e.leaseAddr)

/-- Modelled from the spec: link-prefix filtering "is a numeric range check
on the address interpreted as an integer, masked by prefix length"
(spec section 4.1, algorithm notes). -/
def linkMatch (linkAddr linkLen a : Nat) : Bool :=
  a / 2 ^ (128 - linkLen) == linkAddr / 2 ^ (128 - linkLen)

/-- Modelled from the spec: the full ascending duplicate-free list of
addresses paired with `ident` in table `t`, optionally constrained to the
link prefix (a prefix length of 0 means no link filter, as in the queries
with "no link" of MemfileExtendedInfoTest.getLeases6ByRelayId). -/
def fullAddrsBy (t : List ExtEntry) (ident : List Nat) (linkAddr linkLen : Nat) :
    List Nat :=
  match linkLen with
  | 0 => sortDedup (tableAddrsFor t ident)
  | _ + 1 => (sortDedup (tableAddrsFor t ident)).filter
      (fun a => linkMatch linkAddr linkLen a)

/-- Modelled from the spec: one page of an ascending address list: the
addresses strictly greater than the cursor (exclusive lower bound), at most
`pageSize` of them (spec section 4.1 pagination contract). -/
def pageAddrs (addrs : List Nat) (cursor pageSize : Nat) : List Nat :=
  (addrs.filter (fun a => cursor < a)).take pageSize

/-- The stored lease with address `a`, when present. -/
def lease6For (s : MemfileState) (a : Nat) : Option Lease6 :=
  s.leases6.find? (fun x => x.addr = a)

/-- Modelled from the spec: `getLeasesByRelayId` (spec section 4.1): leases
whose relay-id matches, optionally constrained to a link prefix, in
ascending address order, paginated by an exclusive start-address cursor and
a maximum page size. -/
def getLeases6ByRelayId (s : MemfileState) (relayId : List Nat)
    (linkAddr linkLen cursor pageSize : Nat) : List Lease6 :=
  (pageAddrs (fullAddrsBy s.relayId6 relayId linkAddr linkLen) cursor
    pageSize).filterMap (lease6For s)

/-- Modelled from the spec: `getLeasesByRemoteId` (spec section 4.1), the
remote-id counterpart of `getLeases6ByRelayId`. -/
def getLeases6ByRemoteId (s : MemfileState) (remoteId : List Nat)
    (linkAddr linkLen cursor pageSize : Nat) : List Lease6 :=
  (pageAddrs (fullAddrsBy s.remoteId6 remoteId linkAddr linkLen) cursor
    pageSize).filterMap (lease6For s)

/-- Modelled from the spec: the full ascending duplicate-free list of lease
addresses falling within the given link prefix. -/
def fullAddrsByLink (s : MemfileState) (linkAddr linkLen : Nat) : List Nat :=
  (sortDedup (s.leases6.map (fun x => x.addr))).filter
    (fun a => linkMatch linkAddr linkLen a)

/-- Modelled from the spec: `getLeasesByLink` (spec section 4.1): all leases
whose address falls within the given prefix, same pagination contract as
the identifier queries. -/
def getLeases6ByLink (s : MemfileState) (linkAddr linkLen cursor pageSize : Nat) :
    List Lease6 :=
  (pageAddrs (fullAddrsByLink s linkAddr linkLen) cursor pageSize).filterMap
    (lease6For s)

/-- Modelled from the spec: the direction of an audit-trail entry
(spec section 3, "Audit Trail"). -/
inductive Direction where
  | inbound
  | outbound
  deriving DecidableEq, Repr

/-- Modelled from the spec: an audit-trail entry: (connection id,
direction, payload) (spec section 3; struct AuditEntry of the TCP test
listener, whose header is not under src/). -/
structure AuditEntry where
  connId : Nat
  direction : Direction
  data : String
  deriving DecidableEq, Repr

/-- Modelled from the spec: `getConnectionTrail(connectionId)` of the audit
trail read interface (spec section 6): the entries of one connection id,
preserving insertion order. -/
def getConnectionTrail (trail : List AuditEntry) (cid : Nat) : List AuditEntry :=
  trail.filter (fun e => e.connId = cid)

/-- Modelled from the spec: the request handler of the TCP test listener
(spec section 6: "receives the fully-framed request bytes ..., returns the
response bytes and a termination flag").  The designated terminal request
"I am done" is answered with "good bye"; any other request is echoed, as
the expected responses of TcpListenerTest.multipleRequetsPerClients pin. -/
def testHandler (req : String) : String × Bool :=
  if req = "I am done" then ("good bye", true) else ("echo " ++ req, false)

/-- Modelled from the spec: the outcome one client observes: the response
it received (if an exchange happened) and whether it saw the socket closed
without data (EOF). -/
structure ClientOutcome where
  response : Option String
  sawEof : Bool
  deriving DecidableEq, Repr

/-- Modelled from the spec: the handling of one accepted connection that
sends at most one request (spec sections 4.3 and 4.5).  If the connection
filter rejects the peer, the connection is constructed (it has consumed the
connection id `cid`) but is put directly into CLOSING: the peer sees EOF
and no audit entries are recorded.  If the peer sends nothing, the idle
timeout closes the connection the same way.  Otherwise the framed request
is appended to the audit trail as inbound, the handler response as
outbound, and the client receives the response. -/
def runClient (filterOk : Bool) (cid : Nat) (h : String → String × Bool)
    (request : Option String) : List AuditEntry × ClientOutcome :=
  if filterOk then
    match request with
    | none => ([], ⟨none, true⟩)
    | some req =>
      let resp := (h req).1
      ([⟨cid, Direction.inbound, req⟩, ⟨cid, Direction.outbound, resp⟩],
       ⟨some resp, false⟩)
  else ([], ⟨none, true⟩)

/-- Modelled from the spec: the listener accept loop over sequential
clients (spec section 4.5): each accepted connection is assigned the next
connection id (ids increase by one per accepted connection, rejected ones
included), the optional filter predicate is applied, and the audit entries
of all connections are appended in order.  Returns the audit trail, the
per-client outcomes, and the next unassigned connection id. -/
def runListener (filt : Nat → Bool) (h : String → String × Bool) :
    Nat → List (Option String) → List AuditEntry × List ClientOutcome × Nat
  | nextId, [] => ([], [], nextId)
  | nextId, c :: cs =>
    let r1 := runClient (filt nextId) nextId h c
    let rest := runListener filt h (nextId + 1) cs
    (r1.1 ++ rest.1, r1.2 :: rest.2.1, rest.2.2)

/-- Modelled from the spec: the connection filter of
TcpListenerTest.filterClientsTest, which accepts the first connection and
then rejects every other one: connections 1, 3, 5 are accepted and 2, 4
are rejected. -/
def oddFilter (cid : Nat) : Bool := cid % 2 == 1

/-- Split a byte stream into the successive read chunks of at most
`readMax` bytes each: each socket read returns between one byte and the
per-read maximum (spec section 4.3, read strategy). -/
def chunks (readMax : Nat) : List Char → List (List Char)
  | [] => []
  | a :: rest =>
    (a :: rest.take (readMax - 1)) :: chunks readMax (rest.drop (readMax - 1))
  termination_by l => l.length
  decreasing_by
    simp only [List.length_drop, List.length_cons]
    omega

/-- Modelled from the spec: the read-loop accumulator: the request content
reconstructed by appending the successive chunks of at most `readMax` bytes
(spec section 4.3: "the accumulator must support reconstruction of a
complete request regardless of fragmentation boundary"). -/
def readLoopData (readMax : Nat) (req : String) : String :=
  String.mk (chunks readMax req.toList).flatten

/-- Modelled from the spec: the request/response cycle of one connection
reading the request through the fragmented read loop with per-read maximum
`readMax`: the reconstructed request is audited inbound, the handler
response is audited outbound. -/
def sessionRun (readMax cid : Nat) (h : String → String × Bool)
    (req : String) : List AuditEntry × String :=
  let content := readLoopData readMax req
  ([⟨cid, Direction.inbound, content⟩,
    ⟨cid, Direction.outbound, (h content).1⟩], (h content).1)

/-- Modelled from the spec: the same request/response cycle with an
unfragmented read: the whole request arrives in a single read. -/
def sessionWhole (cid : Nat) (h : String → String × Bool) (req : String) :
    List AuditEntry × String :=
  ([⟨cid, Direction.inbound, req⟩,
    ⟨cid, Direction.outbound, (h req).1⟩], (h req).1)

/-- Modelled from the spec: the connection states of spec section 4.3. -/
inductive ConnState where
  | idle
  | reading
  | processing
  | closing
  | closed
  deriving DecidableEq, Repr

/-- Modelled from the spec: the events a connection reacts to (spec
sections 4.3 and 5): a byte arrival that does not yet complete a frame, a
byte arrival completing a framed request, completion of the asynchronous
response write, the idle timer firing, the pending I/O of a CLOSING
connection draining, and an explicit stop. -/
inductive ConnEvent where
  | byteArrival
  | requestComplete (req : String)
  | writeDone
  | idleFire
  | drainDone
  | stopCall
  deriving DecidableEq, Repr

/-- Modelled from the spec: the per-connection machine state: connection
id, lifecycle state, whether the peer has been shown EOF (socket shut
down), and whether the handler signalled termination for the request being
processed. -/
structure Conn where
  cid : Nat
  st : ConnState
  peerEof : Bool
  terminating : Bool
  deriving DecidableEq, Repr

/-- Modelled from the spec: the transition function of the connection state
machine (spec section 4.3).  A byte arrival moves IDLE to READING; a
completed framed request moves READING to PROCESSING and appends the
inbound request and the outbound handler response to the audit trail; on
write completion the connection goes back to IDLE, or to CLOSING when the
handler signalled termination; the idle timer firing in IDLE or READING
moves to CLOSING and shuts the socket down (the peer observes EOF); a
CLOSING connection whose pending I/O drained becomes CLOSED; an explicit
stop closes unconditionally.  Every other (state, event) pair leaves the
connection unchanged. -/
def connStep (h : String → String × Bool) (c : Conn) (e : ConnEvent) :
    Conn × List AuditEntry :=
  match c.st, e with
  | ConnState.idle, ConnEvent.byteArrival => ({ c with st := ConnState.reading }, [])
  | ConnState.reading, ConnEvent.byteArrival => (c, [])
  | ConnState.reading, ConnEvent.requestComplete req =>
    ({ c with st := ConnState.processing, terminating := (h req).2 },
     [⟨c.cid, Direction.inbound, req⟩, ⟨c.cid, Direction.outbound, (h req).1⟩])
  | ConnState.processing, ConnEvent.writeDone =>
    if c.terminating then ({ c with st := ConnState.closing, peerEof := true }, [])
    else ({ c with st := ConnState.idle }, [])
  | ConnState.idle, ConnEvent.idleFire =>
    ({ c with st := ConnState.closing, peerEof := true }, [])
  | ConnState.reading, ConnEvent.idleFire =>
    ({ c with st := ConnState.closing, peerEof := true }, [])
  | ConnState.closing, ConnEvent.drainDone => ({ c with st := ConnState.closed }, [])
  | _, ConnEvent.stopCall => ({ c with st := ConnState.closed }, [])
  | _, _ => (c, [])

/-- Run the connection state machine over a sequence of events, collecting
the audit entries it appends. -/
def runConn (h : String → String × Bool) (c : Conn) :
    List ConnEvent → Conn × List AuditEntry
  | [] => (c, [])
  | e :: es =>
    let r1 := connStep h c e
    let rest := runConn h r1.1 es
    (rest.1, r1.2 ++ rest.2)

/-- An event that delivers request data to the connection. -/
def isDataEvent : ConnEvent → Bool
  | ConnEvent.byteArrival => true
  | ConnEvent.requestComplete _ => true
  | _ => false

/-- A freshly accepted connection: state IDLE, idle timer armed, the peer
has not seen EOF (spec section 4.3, "on accept"). -/
def acceptedConn (cid : Nat) : Conn := ⟨cid, ConnState.idle, false, false⟩

/-- The IPv6 address 2001:db8::k of the ADDRESS6 vector of the extended
info tests, as a natural number. -/
def egAddr (k : Nat) : Nat := 0x20010db8000000000000000000000000 + k

/-- The IPv6 address 2001:db8:1::4, the address with no lease and no table
entry used by the tests ("other_lease_addr" / "other_link_addr"). -/
def egAddrOther : Nat := 0x20010db8000100000000000000000000 + 4

/-- The DUID byte strings of the DUID6 vector of the extended info tests
(the ASCII bytes of the strings in src/unnamed/part_000 lines 210-213). -/
def egDuid : Nat → List Nat
  | 0 => List.replicate 8 0x77
  | 1 => List.replicate 8 0x42
  | 2 => List.replicate 8 0x3a
  | 3 => [0x30, 0x31, 0x32, 0x33, 0x34, 0x35, 0x36, 0x37, 0x38, 0x39, 0x61,
          0x63, 0x64, 0x65, 0x66]
  | 4 => List.replicate 8 0x42
  | 5 => List.replicate 8 0x24
  | 6 => List.replicate 8 0x5e
  | _ => List.replicate 8 0xe5

/-- The i-th v6 lease created by the initLease6 fixture: type NA, address
2001:db8::i, DUID DUID6[i], iaid 123, lifetimes 1000/2000, subnet id i, no
user-context identifiers. -/
def egLease (i : Nat) : Lease6 :=
  ⟨LeaseType.na, egAddr i, egDuid i, 123, 1000, 2000, i, none, none,
   ExtAction.ignore⟩

/-- The store state after start(V6) and initLease6: eight leases at
2001:db8::0 .. 2001:db8::7, empty extended-info tables, tables enabled. -/
def egState : MemfileState :=
  ⟨(List.range 8).map egLease, [], [], true⟩

/-- The store state of MemfileExtendedInfoTest.getLeases6ByRelayId after
the six addRelayId6 insertions (src/unnamed/part_000 lines 482-487): the
relay-id table holds, in insertion order, (A0,R0), (A0,R0), (A0,R1),
(A1,R0), (A1,R1), (A2,R1) where Ai is 2001:db8::i, R0 is DUID6[0] and R1
is DUID6[1]. -/
def egState2 : MemfileState :=
  addRelayId6
    (addRelayId6
      (addRelayId6
        (addRelayId6
          (addRelayId6
            (addRelayId6 egState (egAddr 0) (egDuid 0))
            (egAddr 0) (egDuid 0))
          (egAddr 0) (egDuid 1))
        (egAddr 1) (egDuid 0))
      (egAddr 1) (egDuid 1))
    (egAddr 2) (egDuid 1)

/-- The lease of the updateLease6 tests before the update: address
2001:db8::1, relay-id 64:64:64:64:64:64:64:64 and remote-id
01:02:03:04:05:06 parsed from the user-context. -/
def egLeaseB : Lease6 :=
  ⟨LeaseType.na, egAddr 1, egDuid 0, 123, 1000, 2000, 1,
   some (List.replicate 8 0x64), some [1, 2, 3, 4, 5, 6], ExtAction.ignore⟩

/-- The store state of MemfileExtendedInfoTest.updateLease6update2 after
adding egLeaseB to a fresh store with the tables enabled. -/
def egStateB : MemfileState :=
  (addLease ⟨[], [], [], true⟩ egLeaseB).2.1

/-- The updated lease of MemfileExtendedInfoTest.updateLease6update2: the
user-context now encodes relay-id 65:65:65:65:65:65:65:65 and remote-id
01:02:03:04:05:07, and the action tag is set to update. -/
def egLeaseB2 : Lease6 :=
  { egLeaseB with
    relayId := some (List.replicate 8 0x65),
    remoteId := some [1, 2, 3, 4, 5, 7],
    action := ExtAction.update }

/-- The store state of MemfileExtendedInfoTest.deleteLease6 after the four
manual table insertions: relay-id entries (A0, DUID6[0]) and (A0, DUID6[2]),
remote-id entries (A0, DUID6[1]) and (A0, DUID6[3]), on the eight-lease
fixture state. -/
def egStateC : MemfileState :=
  addRemoteId6
    (addRelayId6
      (addRemoteId6
        (addRelayId6 egState (egAddr 0) (egDuid 0))
        (egAddr 0) (egDuid 1))
      (egAddr 0) (egDuid 2))
    (egAddr 0) (egDuid 3)

/-- Membership in a sorted insertion. -/
theorem mem_sortInsert {b a : Nat} {l : List Nat} :
    b ∈ sortInsert a l ↔ b = a ∨ b ∈ l := by
  induction l with
  | nil => simp [sortInsert]
  | cons c t ih =>
    rw [sortInsert]
    by_cases h1 : a < c
    · rw [if_pos h1]
      simp [List.mem_cons]
    · rw [if_neg h1]
      by_cases h2 : a = c
      · subst h2
        rw [if_pos rfl]
        simp only [List.mem_cons]
        tauto
      · rw [if_neg h2]
        simp only [List.mem_cons, ih]
        tauto

/-- Sorted insertion preserves strict ascending order. -/
theorem pairwise_sortInsert {a : Nat} {l : List Nat}
    (hl : List.Pairwise (· < ·) l) :
    List.Pairwise (· < ·) (sortInsert a l) := by
  induction l with
  | nil => simp [sortInsert]
  | cons c t ih =>
    rw [List.pairwise_cons] at hl
    by_cases h1 : a < c
    · rw [sortInsert, if_pos h1, List.pairwise_cons]
      refine ⟨?_, List.pairwise_cons.mpr hl⟩
      intro x hx
      rcases List.mem_cons.mp hx with h | h
      · omega
      · exact lt_trans h1 (hl.1 x h)
    · by_cases h2 : a = c
      · rw [sortInsert, if_neg h1, if_pos h2]
        exact List.pairwise_cons.mpr hl
      · rw [sortInsert, if_neg h1, if_neg h2, List.pairwise_cons]
        refine ⟨?_, ih hl.2⟩
        intro x hx
        rcases mem_sortInsert.mp hx with h | h
        · omega
        · exact hl.1 x h

/-- Sorted insertion adds at most one element. -/
theorem length_sortInsert (a : Nat) (l : List Nat) :
    (sortInsert a l).length ≤ l.length + 1 := by
  induction l with
  | nil => simp [sortInsert]
  | cons c t ih =>
    by_cases h1 : a < c
    · simp [sortInsert, if_pos h1]
    · by_cases h2 : a = c
      · simp [sortInsert, if_neg h1, if_pos h2]
      · simp only [sortInsert, if_neg h1, if_neg h2, List.length_cons]
        omega

/-- Membership in the ascending duplicate-free copy of a list. -/
theorem mem_sortDedup {b : Nat} {l : List Nat} :
    b ∈ sortDedup l ↔ b ∈ l := by
  induction l with
  | nil => simp [sortDedup]
  | cons c t ih =>
    show b ∈ sortInsert c (sortDedup t) ↔ _
    rw [mem_sortInsert, ih, List.mem_cons]

/-- The ascending duplicate-free copy of a list is strictly ascending. -/
theorem pairwise_sortDedup (l : List Nat) :
    List.Pairwise (· < ·) (sortDedup l) := by
  induction l with
  | nil => simp [sortDedup]
  | cons c t ih => exact pairwise_sortInsert ih

/-- Deduplicating and sorting does not lengthen a list. -/
theorem length_sortDedup (l : List Nat) :
    (sortDedup l).length ≤ l.length := by
  induction l with
  | nil => simp [sortDedup]
  | cons c t ih =>
    calc (sortInsert c (sortDedup t)).length ≤ (sortDedup t).length + 1 :=
          length_sortInsert c (sortDedup t)
      _ ≤ t.length + 1 := by omega

/-- The last address of a nonempty cons list ignores the head. -/
theorem lastAddr_cons (a : Nat) {m : List Nat} (hm : m ≠ []) :
    lastAddr (a :: m) = lastAddr m := by
  cases m with
  | nil => exact absurd rfl hm
  | cons b t => rfl

/-- The last address of a nonempty list is one of its members. -/
theorem lastAddr_mem : ∀ {l : List Nat}, l ≠ [] → lastAddr l ∈ l
  | [], h => absurd rfl h
  | [a], _ => by simp [lastAddr]
  | a :: b :: t, _ => by
    rw [lastAddr_cons a (by simp)]
    exact List.mem_cons_of_mem a (lastAddr_mem (by simp))

/-- In a strictly ascending list every member is at most the last one. -/
theorem le_lastAddr : ∀ {l : List Nat}, List.Pairwise (· < ·) l →
    ∀ {a : Nat}, a ∈ l → a ≤ lastAddr l
  | [], _, _, ha => absurd ha (List.not_mem_nil _)
  | [b], _, a, ha => by
    rw [List.mem_singleton] at ha
    simp [ha, lastAddr]
  | b :: c :: t, hl, a, ha => by
    rw [lastAddr_cons b (by simp)]
    rcases List.mem_cons.mp ha with h | h
    · subst h
      have hmem : lastAddr (c :: t) ∈ c :: t := lastAddr_mem (by simp)
      exact le_of_lt ((List.pairwise_cons.mp hl).1 _ hmem)
    · exact le_lastAddr (List.pairwise_cons.mp hl).2 h

/-- The last address of an appended list is the last address of its second
part when that part is nonempty. -/
theorem lastAddr_append (l₁ : List Nat) {l₂ : List Nat} (h : l₂ ≠ []) :
    lastAddr (l₁ ++ l₂) = lastAddr l₂ := by
  induction l₁ with
  | nil => rfl
  | cons a t ih =>
    rw [List.cons_append, lastAddr_cons a (by simp [h]), ih]

/-- Filtering a strictly ascending list by "greater than the last address
of its first n elements" yields exactly the elements after the first n. -/
theorem filter_gt_lastAddr_take {l : List Nat}
    (hl : List.Pairwise (· < ·) l) {n : Nat} (h0 : 0 < n) (hn : n ≤ l.length) :
    l.filter (fun a => lastAddr (l.take n) < a) = l.drop n := by
  have htake : l.take n ≠ [] := by
    intro h
    have := congrArg List.length h
    simp only [List.length_take, List.length_nil] at this
    omega
  have hP : List.Pairwise (· < ·) (l.take n ++ l.drop n) := by
    rw [List.take_append_drop]
    exact hl
  rw [List.pairwise_append] at hP
  set c := lastAddr (l.take n) with hc
  have h1 : (l.take n).filter (fun a => c < a) = [] := by
    rw [List.filter_eq_nil_iff]
    intro a ha
    have : a ≤ c := le_lastAddr hP.1 ha
    simp only [decide_eq_true_eq]
    omega
  have h2 : (l.drop n).filter (fun a => c < a) = l.drop n := by
    rw [List.filter_eq_self]
    intro a ha
    have hmem : c ∈ l.take n := by
      rw [hc]
      exact lastAddr_mem htake
    have := hP.2.2 _ hmem a ha
    simp only [decide_eq_true_eq]
    exact this
  conv_lhs => rw [← List.take_append_drop n l]
  rw [List.filter_append, h1, h2, List.nil_append]

/-- Filtering a strictly ascending list by "greater than its last address"
yields the empty list. -/
theorem filter_gt_lastAddr_self {l : List Nat}
    (hl : List.Pairwise (· < ·) l) :
    l.filter (fun a => lastAddr l < a) = [] := by
  rw [List.filter_eq_nil_iff]
  intro a ha
  have : a ≤ lastAddr l := le_lastAddr hl ha
  simp only [decide_eq_true_eq]
  omega

/-- Paging from cursor 0 over a list of positive addresses truncates it. -/
theorem pageAddrs_zero {addrs : List Nat} (hpos : ∀ a ∈ addrs, 0 < a)
    (ps : Nat) : pageAddrs addrs 0 ps = addrs.take ps := by
  rw [pageAddrs, List.filter_eq_self.mpr]
  intro a ha
  simp only [decide_eq_true_eq]
  exact hpos a ha

/-- Paging from the last address of the first page returns the remainder
whole, provided the page size accommodates it. -/
theorem pageAddrs_after_take {l : List Nat} (hl : List.Pairwise (· < ·) l)
    {n : Nat} (h0 : 0 < n) (hn : n ≤ l.length) {ps : Nat}
    (hps : l.length - n ≤ ps) :
    pageAddrs l (lastAddr (l.take n)) ps = l.drop n := by
  rw [pageAddrs, filter_gt_lastAddr_take hl h0 hn]
  exact List.take_of_length_le (by simp only [List.length_drop]; omega)

/-- Paging from the last address of the whole list returns nothing. -/
theorem pageAddrs_past_end {l : List Nat} (hl : List.Pairwise (· < ·) l)
    (ps : Nat) : pageAddrs l (lastAddr l) ps = [] := by
  rw [pageAddrs, filter_gt_lastAddr_self hl, List.take_nil]

/-- The addresses of the leases resolved from an address list are the
addresses whose lookup succeeds, in order. -/
theorem map_addr_filterMap (s : MemfileState) (addrs : List Nat) :
    (addrs.filterMap (lease6For s)).map (fun x => x.addr) =
      addrs.filter (fun a => (lease6For s a).isSome) := by
  induction addrs with
  | nil => rfl
  | cons a t ih =>
    cases hfind : lease6For s a with
    | none =>
      rw [List.filterMap_cons, hfind, List.filter_cons, ih]
      simp [hfind]
    | some le =>
      have haddr : le.addr = a := by
        have hfind2 : List.find? (fun x => decide (x.addr = a)) s.leases6
            = some le := by
          simpa [lease6For] using hfind
        have h := List.find?_some hfind2
        simpa using h
      rw [List.filterMap_cons, hfind, List.filter_cons]
      simp only [hfind, Option.isSome_some, if_pos]
      rw [List.map_cons, haddr, ih]

/-- When every address of the list has a stored lease, resolving the list
to leases preserves the address list exactly. -/
theorem map_addr_filterMap_all {s : MemfileState} {addrs : List Nat}
    (h : ∀ a ∈ addrs, (lease6For s a).isSome) :
    (addrs.filterMap (lease6For s)).map (fun x => x.addr) = addrs := by
  rw [map_addr_filterMap, List.filter_eq_self.mpr]
  intro a ha
  exact h a ha

/-- The number of leases resolved from an address list with total lookup
success is the length of the address list. -/
theorem length_filterMap_all {s : MemfileState} {addrs : List Nat}
    (h : ∀ a ∈ addrs, (lease6For s a).isSome) :
    (addrs.filterMap (lease6For s)).length = addrs.length := by
  have hm := congrArg List.length (map_addr_filterMap_all h)
  simpa using hm

/-- The full matching-address list of an identifier query is strictly
ascending. -/
theorem pairwise_fullAddrsBy (t : List ExtEntry) (ident : List Nat)
    (la ll : Nat) : List.Pairwise (· < ·) (fullAddrsBy t ident la ll) := by
  cases ll with
  | zero => exact pairwise_sortDedup _
  | succ k =>
    exact List.Pairwise.sublist (List.filter_sublist _) (pairwise_sortDedup _)

/-- The full matching-address list of a link query is strictly
ascending. -/
theorem pairwise_fullAddrsByLink (s : MemfileState) (la ll : Nat) :
    List.Pairwise (· < ·) (fullAddrsByLink s la ll) :=
  List.Pairwise.sublist (List.filter_sublist _) (pairwise_sortDedup _)

/-- Core pagination contract over a strictly ascending full match list
whose addresses are positive and resolvable: the first page is the first
`n` matches; the follow-up page from the last returned address is the
remainder; a further page from the last address of the remainder is
empty. -/
theorem paged_spec (s : MemfileState) (full : List Nat)
    (hsort : List.Pairwise (· < ·) full)
    (hpos : ∀ a ∈ full, 0 < a)
    (hsome : ∀ a ∈ full, (lease6For s a).isSome)
    (n ps2 ps3 c1 c2 : Nat) (h0 : 0 < n) (hn : n < full.length)
    (hps2 : full.length - n ≤ ps2)
    (hc1 : c1 = lastAddr (((pageAddrs full 0 n).filterMap
      (lease6For s)).map (fun x => x.addr)))
    (hc2 : c2 = lastAddr (((pageAddrs full c1 ps2).filterMap
      (lease6For s)).map (fun x => x.addr))) :
    ((pageAddrs full 0 n).filterMap (lease6For s)).map (fun x => x.addr)
        = full.take n ∧
    ((pageAddrs full 0 n).filterMap (lease6For s)).length = n ∧
    List.Pairwise (· < ·)
      (((pageAddrs full 0 n).filterMap (lease6For s)).map (fun x => x.addr)) ∧
    ((pageAddrs full c1 ps2).filterMap (lease6For s)).map (fun x => x.addr)
        = full.drop n ∧
    ((pageAddrs full c1 ps2).filterMap (lease6For s)).length
        = full.length - n ∧
    List.Pairwise (· < ·)
      (((pageAddrs full c1 ps2).filterMap (lease6For s)).map
        (fun x => x.addr)) ∧
    (pageAddrs full c2 ps3).filterMap (lease6For s) = [] := by
  have e1 : pageAddrs full 0 n = full.take n := pageAddrs_zero hpos n
  have hsome1 : ∀ a ∈ full.take n, (lease6For s a).isSome := by
    intro a ha
    exact hsome a (List.mem_of_mem_take ha)
  have m1 : ((pageAddrs full 0 n).filterMap (lease6For s)).map
      (fun x => x.addr) = full.take n := by
    rw [e1, map_addr_filterMap_all hsome1]
  have len1 : ((pageAddrs full 0 n).filterMap (lease6For s)).length = n := by
    rw [e1, length_filterMap_all hsome1, List.length_take]
    omega
  have pw1 : List.Pairwise (· < ·) (((pageAddrs full 0 n).filterMap
      (lease6For s)).map (fun x => x.addr)) := by
    rw [m1]
    exact List.Pairwise.sublist (List.take_sublist n full) hsort
  have hc1' : c1 = lastAddr (full.take n) := by rw [hc1, m1]
  have e2 : pageAddrs full c1 ps2 = full.drop n := by
    rw [hc1']
    exact pageAddrs_after_take hsort h0 (le_of_lt hn) hps2
  have hsome2 : ∀ a ∈ full.drop n, (lease6For s a).isSome := by
    intro a ha
    exact hsome a (List.mem_of_mem_drop ha)
  have m2 : ((pageAddrs full c1 ps2).filterMap (lease6For s)).map
      (fun x => x.addr) = full.drop n := by
    rw [e2, map_addr_filterMap_all hsome2]
  have len2 : ((pageAddrs full c1 ps2).filterMap (lease6For s)).length
      = full.length - n := by
    rw [e2, length_filterMap_all hsome2, List.length_drop]
  have pw2 : List.Pairwise (· < ·) (((pageAddrs full c1 ps2).filterMap
      (lease6For s)).map (fun x => x.addr)) := by
    rw [m2]
    exact List.Pairwise.sublist (List.drop_sublist n full) hsort
  have hdrop_ne : full.drop n ≠ [] := by
    intro h
    have := congrArg List.length h
    simp only [List.length_drop, List.length_nil] at this
    omega
  have hc2' : c2 = lastAddr full := by
    rw [hc2, m2, ← List.take_append_drop n full, lastAddr_append _ hdrop_ne,
      List.take_append_drop]
  have e3 : pageAddrs full c2 ps3 = [] := by
    rw [hc2']
    exact pageAddrs_past_end hsort ps3
  exact ⟨m1, len1, pw1, m2, len2, pw2, by rw [e3]; rfl⟩

/-- Entries for an address vanish from a table from which that address was
filtered out. -/
theorem filter_eq_of_filter_ne (t : List ExtEntry) (a : Nat) :
    (t.filter (fun e => e.leaseAddr ≠ a)).filter (fun e => e.leaseAddr = a)
      = [] := by
  rw [List.filter_eq_nil_iff]
  intro e he
  have h := (List.mem_filter.mp he).2
  simp only [decide_eq_true_eq] at h ⊢
  exact h

/-- Claim C1, counterexample: adding to the relay-id table an (address,
identifier) pair identical to the one already present is not a no-op: the
table size changes (from 1 to 2), exactly as the repository test
MemfileExtendedInfoTest.relayIdTable6 expects (six entries after six
insertions one of which repeats an existing pair). -/
theorem claim1_counterexample :
    ¬ ((addRelayId6 (addRelayId6 egState (egAddr 0) (egDuid 0))
          (egAddr 0) (egDuid 0)).relayId6.length
        = (addRelayId6 egState (egAddr 0) (egDuid 0)).relayId6.length) := by
  decide

/-- Claim C1 (amended): for every table (relay-id or remote-id), lease
address and identifier, addEntry always inserts a fresh entry - also when
an identical (address, identifier) pair is already present in that table:
the entry is appended and the table size increases by one, while the other
table is untouched. -/
theorem claim1_amended (s : MemfileState) (a : Nat) (ident : List Nat) :
    (addRelayId6 s a ident).relayId6 = s.relayId6 ++ [⟨a, ident⟩] ∧
    (addRelayId6 s a ident).relayId6.length = s.relayId6.length + 1 ∧
    (addRelayId6 s a ident).remoteId6 = s.remoteId6 ∧
    (addRemoteId6 s a ident).remoteId6 = s.remoteId6 ++ [⟨a, ident⟩] ∧
    (addRemoteId6 s a ident).remoteId6.length = s.remoteId6.length + 1 ∧
    (addRemoteId6 s a ident).relayId6 = s.relayId6 := by
  refine ⟨rfl, ?_, rfl, rfl, ?_, rfl⟩
  · simp [addRelayId6]
  · simp [addRemoteId6]

/-- Claim C4: for every lease whose address is not already present,
addLease succeeds, clears the action tag of the lease to ignore whatever
its prior value, appends the lease, and, when extended-info indexing is
enabled, inserts into the relay-id and remote-id tables exactly the
entries encoded by the user-context of the lease; when indexing is
disabled both tables are untouched. -/
theorem claim4_addLease (s : MemfileState) (l : Lease6)
    (habs : s.leases6.any (fun x => x.addr = l.addr) = false) :
    (addLease s l).1 = true ∧
    ((addLease s l).2.2).action = ExtAction.ignore ∧
    ((addLease s l).2.1).leases6
      = s.leases6 ++ [{ l with action := ExtAction.ignore }] ∧
    (s.tablesEnabled = true →
      ((addLease s l).2.1).relayId6 = s.relayId6 ++
        (match l.relayId with
         | some rid => [⟨l.addr, rid⟩]
         | none => []) ∧
      ((addLease s l).2.1).remoteId6 = s.remoteId6 ++
        (match l.remoteId with
         | some mid => [⟨l.addr, mid⟩]
         | none => [])) ∧
    (s.tablesEnabled = false →
      ((addLease s l).2.1).relayId6 = s.relayId6 ∧
      ((addLease s l).2.1).remoteId6 = s.remoteId6) := by
  cases he : s.tablesEnabled <;> cases hr : l.relayId <;> cases hm : l.remoteId <;>
    simp [addLease, habs, he, hr, hm, addRelayId6, addRemoteId6]

/-- Claim C4, witness: the addLease6 scenario: a fresh enabled store, a
lease at 2001:db8::1 whose user-context encodes relay-id 64x8 and
remote-id 01:02:03:04:05:06 and whose action tag was set to delete
beforehand: the add succeeds, the tag comes back as ignore and each table
receives exactly the encoded entry. -/
theorem claim4_addLease_witness :
    (addLease ⟨[], [], [], true⟩ { egLeaseB with action := ExtAction.delete }).1
      = true ∧
    ((addLease ⟨[], [], [], true⟩
        { egLeaseB with action := ExtAction.delete }).2.2).action
      = ExtAction.ignore ∧
    ((addLease ⟨[], [], [], true⟩
        { egLeaseB with action := ExtAction.delete }).2.1).relayId6
      = [⟨egAddr 1, List.replicate 8 0x64⟩] ∧
    ((addLease ⟨[], [], [], true⟩
        { egLeaseB with action := ExtAction.delete }).2.1).remoteId6
      = [⟨egAddr 1, [1, 2, 3, 4, 5, 6]⟩] := by
  have h := claim4_addLease ⟨[], [], [], true⟩
    { egLeaseB with action := ExtAction.delete } (by decide)
  refine ⟨h.1, h.2.1, ?_, ?_⟩
  · rw [(h.2.2.2.1 rfl).1]
    rfl
  · rw [(h.2.2.2.1 rfl).2]
    rfl

/-- Claim C5: deleting a stored lease with indexing enabled removes every
extended-info entry for its address from both tables; removing the entries
of an address that has none is a no-op (the state, hence every table size,
is unchanged, and the operation is total so no error is raised), and a
second removal for the same address is a no-op as well. -/
theorem claim5_deleteLease (s : MemfileState) (l : Lease6)
    (hen : s.tablesEnabled = true)
    (hpres : s.leases6.any (fun x => x.addr = l.addr) = true) :
    ((deleteLease s l).2.1).relayId6.filter
        (fun e => e.leaseAddr = l.addr) = [] ∧
    ((deleteLease s l).2.1).remoteId6.filter
        (fun e => e.leaseAddr = l.addr) = [] ∧
    (∀ (t : MemfileState) (a : Nat),
      t.relayId6.filter (fun e => e.leaseAddr = a) = [] →
      t.remoteId6.filter (fun e => e.leaseAddr = a) = [] →
      deleteExtendedInfo6 t a = t) ∧
    (∀ (t : MemfileState) (a : Nat),
      deleteExtendedInfo6 (deleteExtendedInfo6 t a) a
        = deleteExtendedInfo6 t a) := by
  refine ⟨?_, ?_, ?_, ?_⟩
  · simp only [deleteLease, hpres, if_true, hen, deleteExtendedInfo6]
    exact filter_eq_of_filter_ne _ _
  · simp only [deleteLease, hpres, if_true, hen, deleteExtendedInfo6]
    exact filter_eq_of_filter_ne _ _
  · intro t a h1 h2
    have r1 : t.relayId6.filter (fun e => e.leaseAddr ≠ a) = t.relayId6 := by
      rw [List.filter_eq_self]
      intro e he
      have h := List.filter_eq_nil_iff.mp h1 e he
      simp only [decide_eq_true_eq] at h ⊢
      exact h
    have r2 : t.remoteId6.filter (fun e => e.leaseAddr ≠ a) = t.remoteId6 := by
      rw [List.filter_eq_self]
      intro e he
      have h := List.filter_eq_nil_iff.mp h2 e he
      simp only [decide_eq_true_eq] at h ⊢
      exact h
    obtain ⟨le, re, rm, en⟩ := t
    simp only [deleteExtendedInfo6] at r1 r2 ⊢
    simp only [MemfileState.mk.injEq]
    exact ⟨trivial, r1, r2, trivial⟩
  · intro t a
    simp [deleteExtendedInfo6, List.filter_filter, Bool.and_self]

/-- Claim C5, witness: the deleteLease6 scenario: on the eight-lease
fixture with two relay-id and two remote-id entries for 2001:db8::0,
deleting the lease at 2001:db8::0 empties both tables, and removing the
entries of 2001:db8:1::4 (which has none) is a no-op, also the second
time. -/
theorem claim5_deleteLease_witness :
    ((deleteLease egStateC (egLease 0)).2.1).relayId6.filter
        (fun e => e.leaseAddr = (egLease 0).addr) = [] ∧
    ((deleteLease egStateC (egLease 0)).2.1).remoteId6.filter
        (fun e => e.leaseAddr = (egLease 0).addr) = [] ∧
    deleteExtendedInfo6 egStateC egAddrOther = egStateC ∧
    deleteExtendedInfo6 (deleteExtendedInfo6 egStateC egAddrOther) egAddrOther
      = deleteExtendedInfo6 egStateC egAddrOther := by
  have h := claim5_deleteLease egStateC (egLease 0) (by decide) (by decide)
  exact ⟨h.1, h.2.1, h.2.2.1 egStateC egAddrOther (by decide) (by decide),
    h.2.2.2 egStateC egAddrOther⟩

/-- The address list of one result page is a sublist of the full matching
address list. -/
theorem page_filterMap_sublist (s : MemfileState) (full : List Nat)
    (c ps : Nat) :
    List.Sublist
      (((pageAddrs full c ps).filterMap (lease6For s)).map (fun x => x.addr))
      full := by
  rw [map_addr_filterMap]
  have h1 : List.Sublist
      ((pageAddrs full c ps).filter (fun a => (lease6For s a).isSome))
      (pageAddrs full c ps) := List.filter_sublist _
  have h2 : List.Sublist (pageAddrs full c ps)
      (full.filter (fun a => c < a)) := List.take_sublist _ _
  have h3 : List.Sublist (full.filter (fun a => c < a)) full :=
    List.filter_sublist _
  exact (h1.trans h2).trans h3

/-- Claim C10: for every identifier query (relay-id or remote-id table)
the returned lease addresses are strictly ascending, hence each matching
lease address appears at most once, even when the index table holds
several entries pairing the same address with the queried identifier; in
the getLeases6ByRelayId scenario the three table entries for DUID6[0]
spread over two addresses yield exactly two results. -/
theorem claim10_distinct_addresses :
    (∀ (s : MemfileState) (ident : List Nat) (la ll c ps : Nat),
      List.Pairwise (· < ·)
        ((getLeases6ByRelayId s ident la ll c ps).map (fun x => x.addr)) ∧
      ((getLeases6ByRelayId s ident la ll c ps).map (fun x => x.addr)).Nodup) ∧
    (∀ (s : MemfileState) (ident : List Nat) (la ll c ps : Nat),
      List.Pairwise (· < ·)
        ((getLeases6ByRemoteId s ident la ll c ps).map (fun x => x.addr)) ∧
      ((getLeases6ByRemoteId s ident la ll c ps).map
        (fun x => x.addr)).Nodup) ∧
    (egState2.relayId6.filter (fun e => e.id = egDuid 0)).length = 3 ∧
    (getLeases6ByRelayId egState2 (egDuid 0) 0 0 0 100).length = 2 ∧
    (getLeases6ByRelayId egState2 (egDuid 0) 0 0 0 100).map (fun x => x.addr)
      = [egAddr 0, egAddr 1] := by
  refine ⟨?_, ?_, by decide, by decide, by decide⟩
  · intro s ident la ll c ps
    have hp : List.Pairwise (· < ·)
        ((getLeases6ByRelayId s ident la ll c ps).map (fun x => x.addr)) := by
      rw [getLeases6ByRelayId]
      exact List.Pairwise.sublist (page_filterMap_sublist s _ c ps)
        (pairwise_fullAddrsBy s.relayId6 ident la ll)
    exact ⟨hp, hp.imp (fun hab => by omega)⟩
  · intro s ident la ll c ps
    have hp : List.Pairwise (· < ·)
        ((getLeases6ByRemoteId s ident la ll c ps).map (fun x => x.addr)) := by
      rw [getLeases6ByRemoteId]
      exact List.Pairwise.sublist (page_filterMap_sublist s _ c ps)
        (pairwise_fullAddrsBy s.remoteId6 ident la ll)
    exact ⟨hp, hp.imp (fun hab => by omega)⟩

/-- Claim C2: for every store, identifier and link filter, when the full
matching address list has M elements, all positive and all resolvable to
stored leases, and 0 < N < M, the relay-id query with page size N returns
exactly N leases in strictly ascending address order (the first N matching
addresses); the follow-up query whose cursor is the last returned address
returns the remaining M - N matches (for any accommodating page size); and
a further query whose cursor is the last address of that remainder returns
the empty collection; and the same holds for remote-id queries and for
link queries. -/
theorem claim2_pagination :
    (∀ (s : MemfileState) (ident : List Nat) (la ll n ps2 ps3 c1 c2 : Nat),
      (∀ a ∈ fullAddrsBy s.relayId6 ident la ll, 0 < a) →
      (∀ a ∈ fullAddrsBy s.relayId6 ident la ll, (lease6For s a).isSome) →
      0 < n → n < (fullAddrsBy s.relayId6 ident la ll).length →
      (fullAddrsBy s.relayId6 ident la ll).length - n ≤ ps2 →
      c1 = lastAddr ((getLeases6ByRelayId s ident la ll 0 n).map
        (fun x => x.addr)) →
      c2 = lastAddr ((getLeases6ByRelayId s ident la ll c1 ps2).map
        (fun x => x.addr)) →
      (getLeases6ByRelayId s ident la ll 0 n).map (fun x => x.addr)
          = (fullAddrsBy s.relayId6 ident la ll).take n ∧
      (getLeases6ByRelayId s ident la ll 0 n).length = n ∧
      List.Pairwise (· < ·)
        ((getLeases6ByRelayId s ident la ll 0 n).map (fun x => x.addr)) ∧
      (getLeases6ByRelayId s ident la ll c1 ps2).map (fun x => x.addr)
          = (fullAddrsBy s.relayId6 ident la ll).drop n ∧
      (getLeases6ByRelayId s ident la ll c1 ps2).length
          = (fullAddrsBy s.relayId6 ident la ll).length - n ∧
      List.Pairwise (· < ·)
        ((getLeases6ByRelayId s ident la ll c1 ps2).map (fun x => x.addr)) ∧
      getLeases6ByRelayId s ident la ll c2 ps3 = []) ∧
    (∀ (s : MemfileState) (ident : List Nat) (la ll n ps2 ps3 c1 c2 : Nat),
      (∀ a ∈ fullAddrsBy s.remoteId6 ident la ll, 0 < a) →
      (∀ a ∈ fullAddrsBy s.remoteId6 ident la ll, (lease6For s a).isSome) →
      0 < n → n < (fullAddrsBy s.remoteId6 ident la ll).length →
      (fullAddrsBy s.remoteId6 ident la ll).length - n ≤ ps2 →
      c1 = lastAddr ((getLeases6ByRemoteId s ident la ll 0 n).map
        (fun x => x.addr)) →
      c2 = lastAddr ((getLeases6ByRemoteId s ident la ll c1 ps2).map
        (fun x => x.addr)) →
      (getLeases6ByRemoteId s ident la ll 0 n).map (fun x => x.addr)
          = (fullAddrsBy s.remoteId6 ident la ll).take n ∧
      (getLeases6ByRemoteId s ident la ll 0 n).length = n ∧
      List.Pairwise (· < ·)
        ((getLeases6ByRemoteId s ident la ll 0 n).map (fun x => x.addr)) ∧
      (getLeases6ByRemoteId s ident la ll c1 ps2).map (fun x => x.addr)
          = (fullAddrsBy s.remoteId6 ident la ll).drop n ∧
      (getLeases6ByRemoteId s ident la ll c1 ps2).length
          = (fullAddrsBy s.remoteId6 ident la ll).length - n ∧
      List.Pairwise (· < ·)
        ((getLeases6ByRemoteId s ident la ll c1 ps2).map (fun x => x.addr)) ∧
      getLeases6ByRemoteId s ident la ll c2 ps3 = []) ∧
    (∀ (s : MemfileState) (la ll n ps2 ps3 c1 c2 : Nat),
      (∀ a ∈ fullAddrsByLink s la ll, 0 < a) →
      (∀ a ∈ fullAddrsByLink s la ll, (lease6For s a).isSome) →
      0 < n → n < (fullAddrsByLink s la ll).length →
      (fullAddrsByLink s la ll).length - n ≤ ps2 →
      c1 = lastAddr ((getLeases6ByLink s la ll 0 n).map (fun x => x.addr)) →
      c2 = lastAddr ((getLeases6ByLink s la ll c1 ps2).map
        (fun x => x.addr)) →
      (getLeases6ByLink s la ll 0 n).map (fun x => x.addr)
          = (fullAddrsByLink s la ll).take n ∧
      (getLeases6ByLink s la ll 0 n).length = n ∧
      List.Pairwise (· < ·)
        ((getLeases6ByLink s la ll 0 n).map (fun x => x.addr)) ∧
      (getLeases6ByLink s la ll c1 ps2).map (fun x => x.addr)
          = (fullAddrsByLink s la ll).drop n ∧
      (getLeases6ByLink s la ll c1 ps2).length
          = (fullAddrsByLink s la ll).length - n ∧
      List.Pairwise (· < ·)
        ((getLeases6ByLink s la ll c1 ps2).map (fun x => x.addr)) ∧
      getLeases6ByLink s la ll c2 ps3 = []) := by
  refine ⟨?_, ?_, ?_⟩
  · intro s ident la ll n ps2 ps3 c1 c2 hpos hsome h0 hn hps2 hc1 hc2
    simp only [getLeases6ByRelayId] at hc1 hc2 ⊢
    exact paged_spec s (fullAddrsBy s.relayId6 ident la ll)
      (pairwise_fullAddrsBy s.relayId6 ident la ll) hpos hsome
      n ps2 ps3 c1 c2 h0 hn hps2 hc1 hc2
  · intro s ident la ll n ps2 ps3 c1 c2 hpos hsome h0 hn hps2 hc1 hc2
    simp only [getLeases6ByRemoteId] at hc1 hc2 ⊢
    exact paged_spec s (fullAddrsBy s.remoteId6 ident la ll)
      (pairwise_fullAddrsBy s.remoteId6 ident la ll) hpos hsome
      n ps2 ps3 c1 c2 h0 hn hps2 hc1 hc2
  · intro s la ll n ps2 ps3 c1 c2 hpos hsome h0 hn hps2 hc1 hc2
    simp only [getLeases6ByLink] at hc1 hc2 ⊢
    exact paged_spec s (fullAddrsByLink s la ll)
      (pairwise_fullAddrsByLink s la ll) hpos hsome
      n ps2 ps3 c1 c2 h0 hn hps2 hc1 hc2

/-- Claim C2, witness: the getLeases6ByRelayId scenario: on the
eight-lease fixture whose relay-id table pairs DUID6[1] with 2001:db8::0,
2001:db8::1 and 2001:db8::2, the query by DUID6[1] with no link filter and
page size 2 returns the leases at [2001:db8::0, 2001:db8::1]; continuing
with the last returned address 2001:db8::1 as cursor returns the lease at
[2001:db8::2]; and a further query past the end returns nothing. -/
theorem claim2_pagination_witness :
    (getLeases6ByRelayId egState2 (egDuid 1) 0 0 0 2).map (fun x => x.addr)
      = [egAddr 0, egAddr 1] ∧
    (getLeases6ByRelayId egState2 (egDuid 1) 0 0 (egAddr 1) 2).map
      (fun x => x.addr) = [egAddr 2] ∧
    getLeases6ByRelayId egState2 (egDuid 1) 0 0 (egAddr 2) 1 = [] := by
  have h := claim2_pagination.1 egState2 (egDuid 1) 0 0 2 2 1 (egAddr 1)
    (egAddr 2) (by decide) (by decide) (by decide) (by decide) (by decide)
    (by decide) (by decide)
  exact ⟨h.1.trans (by decide), h.2.2.2.1.trans (by decide), h.2.2.2.2.2.2⟩

/-- After filtering an address out of a table and appending one entry for
it, the entries of that address are exactly the appended one. -/
theorem filter_addr_append_single (t : List ExtEntry) (a : Nat)
    (ident : List Nat) :
    ((t.filter (fun e => e.leaseAddr ≠ a)
        ++ [(⟨a, ident⟩ : ExtEntry)]).filter
      (fun e => e.leaseAddr = a)) = [(⟨a, ident⟩ : ExtEntry)] := by
  rw [List.filter_append, filter_eq_of_filter_ne]
  simp

/-- Shape of the updateLease6 result in the update branch with the tables
enabled: the call succeeds, the returned and stored lease carries the
ignore tag, and each table is its old contents minus the entries of the
lease address plus the single entry re-derived from the new
user-context. -/
theorem updateLease6_update_shape (s : MemfileState) (l : Lease6)
    {nid mid : List Nat}
    (hpres : s.leases6.any (fun x => x.addr = l.addr) = true)
    (hen : s.tablesEnabled = true)
    (hact : l.action = ExtAction.update)
    (hr : l.relayId = some nid)
    (hm : l.remoteId = some mid) :
    (updateLease6 s l).1 = true ∧
    (updateLease6 s l).2.2 = { l with action := ExtAction.ignore } ∧
    ((updateLease6 s l).2.1).relayId6
      = s.relayId6.filter (fun e => e.leaseAddr ≠ l.addr) ++ [⟨l.addr, nid⟩] ∧
    ((updateLease6 s l).2.1).remoteId6
      = s.remoteId6.filter (fun e => e.leaseAddr ≠ l.addr) ++ [⟨l.addr, mid⟩] ∧
    ((updateLease6 s l).2.1).leases6
      = s.leases6.map (fun x =>
          if x.addr = l.addr then { l with action := ExtAction.ignore }
          else x) := by
  refine ⟨?_, ?_, ?_, ?_, ?_⟩ <;>
    simp [updateLease6, hpres, hen, hact, hr, hm, deleteExtendedInfo6,
      addRelayId6, addRemoteId6]

/-- Claim C3: updating a stored lease with the action tag set to update
(tables enabled, the new user-context encoding relay-id `nid` and
remote-id `mid`) removes the existing index entries of the lease address
and re-derives them from the new user-context: afterwards the entries of
that address are exactly the re-derived ones, a relay-id query using the
new identifier returns the lease, a relay-id query using any other (old)
identifier returns no lease with that address, and after every successful
updateLease6 call - whatever the action tag, hence whichever branch was
taken - the action tag of the processed lease is reset to ignore. -/
theorem claim3_update_rederives (s : MemfileState) (l : Lease6)
    (nid mid : List Nat)
    (hpres : s.leases6.any (fun x => x.addr = l.addr) = true)
    (hen : s.tablesEnabled = true)
    (hact : l.action = ExtAction.update)
    (hr : l.relayId = some nid)
    (hm : l.remoteId = some mid)
    (hpos : 0 < l.addr) :
    (updateLease6 s l).1 = true ∧
    ((updateLease6 s l).2.2).action = ExtAction.ignore ∧
    ((updateLease6 s l).2.1).relayId6.filter (fun e => e.leaseAddr = l.addr)
      = [⟨l.addr, nid⟩] ∧
    ((updateLease6 s l).2.1).remoteId6.filter (fun e => e.leaseAddr = l.addr)
      = [⟨l.addr, mid⟩] ∧
    l.addr ∈ (getLeases6ByRelayId (updateLease6 s l).2.1 nid 0 0 0
      (((updateLease6 s l).2.1).relayId6.length)).map (fun x => x.addr) ∧
    (∀ (oid : List Nat) (ps : Nat), oid ≠ nid →
      ∀ le ∈ getLeases6ByRelayId (updateLease6 s l).2.1 oid 0 0 0 ps,
        le.addr ≠ l.addr) ∧
    (∀ l2 : Lease6, s.leases6.any (fun x => x.addr = l2.addr) = true →
      ((updateLease6 s l2).2.2).action = ExtAction.ignore) := by
  obtain ⟨hok, hlease, hrel, hrem, hstore⟩ :=
    updateLease6_update_shape s l hpres hen hact hr hm
  have hfrel : ((updateLease6 s l).2.1).relayId6.filter
      (fun e => e.leaseAddr = l.addr) = [⟨l.addr, nid⟩] := by
    rw [hrel]
    exact filter_addr_append_single _ _ _
  have hfrem : ((updateLease6 s l).2.1).remoteId6.filter
      (fun e => e.leaseAddr = l.addr) = [⟨l.addr, mid⟩] := by
    rw [hrem]
    exact filter_addr_append_single _ _ _
  -- The updated lease is stored, so the lookup of its address succeeds.
  have hsome : (lease6For (updateLease6 s l).2.1 l.addr).isSome = true := by
    rw [lease6For, List.find?_isSome]
    obtain ⟨x, hx, hxaddr⟩ := List.any_eq_true.mp hpres
    refine ⟨{ l with action := ExtAction.ignore }, ?_, by simp⟩
    rw [hstore]
    refine List.mem_map.mpr ⟨x, hx, ?_⟩
    simp only [decide_eq_true_eq] at hxaddr
    rw [if_pos hxaddr]
  -- The re-derived entry puts the address in the full match list of nid.
  have hmem_full : l.addr ∈ fullAddrsBy ((updateLease6 s l).2.1).relayId6
      nid 0 0 := by
    show l.addr ∈ sortDedup (tableAddrsFor _ nid)
    rw [mem_sortDedup]
    refine List.mem_map.mpr ⟨⟨l.addr, nid⟩, ?_, rfl⟩
    refine List.mem_filter.mpr ⟨?_, by simp⟩
    rw [hrel]
    exact List.mem_append.mpr (Or.inr (by simp))
  constructor
  · exact hok
  constructor
  · rw [hlease]
  constructor
  · exact hfrel
  constructor
  · exact hfrem
  constructor
  · -- Query by the new identifier returns the lease.
    rw [getLeases6ByRelayId, map_addr_filterMap]
    set full := fullAddrsBy ((updateLease6 s l).2.1).relayId6 nid 0 0 with hfull
    have hlen : (full.filter (fun a => 0 < a)).length
        ≤ ((updateLease6 s l).2.1).relayId6.length := by
      have e1 : (full.filter (fun a => 0 < a)).length ≤ full.length :=
        List.length_filter_le _ _
      have e2 : full.length
          ≤ (tableAddrsFor ((updateLease6 s l).2.1).relayId6 nid).length := by
        rw [hfull]
        exact length_sortDedup _
      have e3 : (tableAddrsFor ((updateLease6 s l).2.1).relayId6 nid).length
          ≤ ((updateLease6 s l).2.1).relayId6.length := by
        rw [tableAddrsFor, List.length_map]
        exact List.length_filter_le _ _
      omega
    have hpage : pageAddrs full 0 (((updateLease6 s l).2.1).relayId6.length)
        = full.filter (fun a => 0 < a) := by
      rw [pageAddrs]
      exact List.take_of_length_le hlen
    rw [hpage]
    refine List.mem_filter.mpr ⟨?_, ?_⟩
    · exact List.mem_filter.mpr ⟨hmem_full, by simpa using hpos⟩
    · simpa using hsome
  constructor
  · -- A query by any other identifier returns no lease with this address.
    intro oid ps hne le hle
    rw [getLeases6ByRelayId] at hle
    obtain ⟨a, hap, hfind⟩ := List.mem_filterMap.mp hle
    have hlea : le.addr = a := by
      have hfind2 : List.find? (fun x => decide (x.addr = a))
          ((updateLease6 s l).2.1).leases6 = some le := by
        simpa [lease6For] using hfind
      simpa using List.find?_some hfind2
    rw [hlea]
    intro haddr
    simp only [pageAddrs] at hap
    have ha1 : a ∈ fullAddrsBy ((updateLease6 s l).2.1).relayId6 oid 0 0 :=
      List.mem_of_mem_filter (List.mem_of_mem_take hap)
    have ha2 : a ∈ tableAddrsFor ((updateLease6 s l).2.1).relayId6 oid := by
      have hsd : a ∈ sortDedup (tableAddrsFor
          ((updateLease6 s l).2.1).relayId6 oid) := ha1
      exact mem_sortDedup.mp hsd
    simp only [tableAddrsFor] at ha2
    obtain ⟨e, hef, hea⟩ := List.mem_map.mp ha2
    have heid : e.id = oid := by
      have := (List.mem_filter.mp hef).2
      simpa using this
    have hemem : e ∈ ((updateLease6 s l).2.1).relayId6 :=
      List.mem_of_mem_filter hef
    have hein : e ∈ ((updateLease6 s l).2.1).relayId6.filter
        (fun x => x.leaseAddr = l.addr) := by
      refine List.mem_filter.mpr ⟨hemem, ?_⟩
      simp [hea, haddr]
    rw [hfrel] at hein
    have he2 : e = ⟨l.addr, nid⟩ := by simpa using hein
    rw [he2] at heid
    exact hne (heid.symm)
  · -- The tag is reset to ignore after every successful call.
    intro l2 hp2
    simp [updateLease6, hp2]

/-- Claim C3, witness: the updateLease6update2 scenario: the lease at
2001:db8::1 whose user-context encoded relay-id 64x8 and remote-id
01:02:03:04:05:06 is updated with a user-context encoding relay-id 65x8
and remote-id 01:02:03:04:05:07 and the action tag set to update: the call
succeeds, the tag is reset to ignore, each table holds exactly the new
entry for the address, the relay-id query by the new identifier returns
the lease address, and the relay-id query by the old identifier returns
nothing. -/
theorem claim3_update_rederives_witness :
    (updateLease6 egStateB egLeaseB2).1 = true ∧
    ((updateLease6 egStateB egLeaseB2).2.2).action = ExtAction.ignore ∧
    ((updateLease6 egStateB egLeaseB2).2.1).relayId6.filter
        (fun e => e.leaseAddr = egLeaseB2.addr)
      = [⟨egAddr 1, List.replicate 8 0x65⟩] ∧
    ((updateLease6 egStateB egLeaseB2).2.1).remoteId6.filter
        (fun e => e.leaseAddr = egLeaseB2.addr)
      = [⟨egAddr 1, [1, 2, 3, 4, 5, 7]⟩] ∧
    egLeaseB2.addr ∈ (getLeases6ByRelayId (updateLease6 egStateB egLeaseB2).2.1
      (List.replicate 8 0x65) 0 0 0
      (((updateLease6 egStateB egLeaseB2).2.1).relayId6.length)).map
        (fun x => x.addr) ∧
    getLeases6ByRelayId (updateLease6 egStateB egLeaseB2).2.1
      (List.replicate 8 0x64) 0 0 0 10 = [] := by
  have h := claim3_update_rederives egStateB egLeaseB2
    (List.replicate 8 0x65) [1, 2, 3, 4, 5, 7] (by decide) (by decide)
    (by decide) (by decide) (by decide) (by decide)
  exact ⟨h.1, h.2.1, h.2.2.1, h.2.2.2.1, h.2.2.2.2.1, by decide⟩

/-- Every audit entry produced from connection id `n` onwards carries a
connection id of at least `n`. -/
theorem runListener_connId_ge (filt : Nat → Bool) (h : String → String × Bool) :
    ∀ (cs : List (Option String)) (n : Nat) (e : AuditEntry),
      e ∈ (runListener filt h n cs).1 → n ≤ e.connId := by
  intro cs
  induction cs with
  | nil =>
    intro n e he
    simp [runListener] at he
  | cons c t ih =>
    intro n e he
    simp only [runListener] at he
    rcases List.mem_append.mp he with h1 | h2
    · have hc : e.connId = n := by
        rcases c with _ | req
        · by_cases hf : filt n <;> simp [runClient, hf] at h1
        · by_cases hf : filt n
          · simp only [runClient, hf, if_true, List.mem_cons,
              List.not_mem_nil, or_false] at h1
            rcases h1 with h | h <;> rw [h]
          · simp [runClient, hf] at h1
      omega
    · have := ih (n + 1) e h2
      omega

/-- The audit trail of connection `cid` in an all-accepted run of clients
each sending the terminal request is exactly the inbound terminal request
followed by the outbound farewell, tagged with `cid`. -/
theorem runListener_allDone_trail (k : Nat) :
    ∀ (n cid : Nat), n ≤ cid → cid < n + k →
      getConnectionTrail (runListener (fun _ => true) testHandler n
          (List.replicate k (some "I am done"))).1 cid
        = [⟨cid, Direction.inbound, "I am done"⟩,
           ⟨cid, Direction.outbound, "good bye"⟩] := by
  induction k with
  | zero =>
    intro n cid h1 h2
    omega
  | succ m ih =>
    intro n cid h1 h2
    have hclient : (runClient ((fun (_ : Nat) => true) n) n testHandler
        (some "I am done")).1
          = [⟨n, Direction.inbound, "I am done"⟩,
             ⟨n, Direction.outbound, "good bye"⟩] := rfl
    rw [List.replicate_succ]
    simp only [runListener, getConnectionTrail]
    rw [List.filter_append]
    by_cases hcid : cid = n
    · subst hcid
      have hrest : ((runListener (fun _ => true) testHandler (cid + 1)
          (List.replicate m (some "I am done"))).1).filter
            (fun e => e.connId = cid) = [] := by
        rw [List.filter_eq_nil_iff]
        intro e he
        have := runListener_connId_ge (fun _ => true) testHandler _ _ e he
        simp only [decide_eq_true_eq]
        omega
      rw [hclient, hrest]
      simp
    · have hfirst : ((runClient ((fun (_ : Nat) => true) n) n testHandler
          (some "I am done")).1).filter (fun e => e.connId = cid) = [] := by
        rw [hclient, List.filter_eq_nil_iff]
        intro e he
        simp only [decide_eq_true_eq]
        rcases List.mem_cons.mp he with h | h
        · rw [h]
          simpa using fun hx => hcid hx.symm
        · rcases List.mem_cons.mp h with h | h
          · rw [h]
            simpa using fun hx => hcid hx.symm
          · simp at h
      rw [hfirst, List.nil_append]
      have := ih (n + 1) cid (by omega) (by omega)
      rw [getConnectionTrail] at this
      exact this

/-- Every client of an all-accepted terminal-request run receives the
farewell response and does not see a bare EOF. -/
theorem runListener_allDone_outcomes (k : Nat) :
    ∀ n : Nat, (runListener (fun _ => true) testHandler n
        (List.replicate k (some "I am done"))).2.1
      = List.replicate k ⟨some "good bye", false⟩ := by
  induction k with
  | zero =>
    intro n
    rfl
  | succ m ih =>
    intro n
    rw [List.replicate_succ, List.replicate_succ]
    simp only [runListener]
    rw [ih (n + 1)]
    rfl

/-- Claim C6: a client that connects and sends the terminal request
"I am done" is answered "good bye", and the audit trail of its connection
is exactly [(cid, INBOUND, "I am done"), (cid, OUTBOUND, "good bye")]; with
`k` sequential such clients this holds for every connection id `cid` with
1 ≤ cid ≤ k, the ids being assigned 1, 2, 3, ... in accept order. -/
theorem claim6_terminal_exchange (k cid : Nat) (h1 : 1 ≤ cid) (h2 : cid ≤ k) :
    getConnectionTrail (runListener (fun _ => true) testHandler 1
        (List.replicate k (some "I am done"))).1 cid
      = [⟨cid, Direction.inbound, "I am done"⟩,
         ⟨cid, Direction.outbound, "good bye"⟩] ∧
    (runListener (fun _ => true) testHandler 1
        (List.replicate k (some "I am done"))).2.1
      = List.replicate k ⟨some "good bye", false⟩ := by
  exact ⟨runListener_allDone_trail k 1 cid h1 (by omega),
    runListener_allDone_outcomes k 1⟩

/-- Claim C6, witness: with three sequential clients the second connection
has the two-entry audit trail tagged with id 2, and all three clients
receive "good bye". -/
theorem claim6_terminal_exchange_witness :
    getConnectionTrail (runListener (fun _ => true) testHandler 1
        (List.replicate 3 (some "I am done"))).1 2
      = [⟨2, Direction.inbound, "I am done"⟩,
         ⟨2, Direction.outbound, "good bye"⟩] ∧
    (runListener (fun _ => true) testHandler 1
        (List.replicate 3 (some "I am done"))).2.1
      = List.replicate 3 ⟨some "good bye", false⟩ :=
  claim6_terminal_exchange 3 2 (by decide) (by decide)

/-- Claim C7: with the filter that rejects every other connection and five
sequential connection attempts, connections 1, 3 and 5 receive the normal
request/response exchange with the usual two audit entries each, while
connections 2 and 4 observe immediate EOF with no data exchanged and the
audit trails of those connection ids are empty; the rejected connections
are still constructed and consume a connection id (the accepted attempts
after them audit under ids 3 and 5, and the next unassigned id is 6). -/
theorem claim7_filtered_connections :
    runListener oddFilter testHandler 1
      [some "I am done", some "", some "I am done", some "", some "I am done"]
      = ([⟨1, Direction.inbound, "I am done"⟩,
          ⟨1, Direction.outbound, "good bye"⟩,
          ⟨3, Direction.inbound, "I am done"⟩,
          ⟨3, Direction.outbound, "good bye"⟩,
          ⟨5, Direction.inbound, "I am done"⟩,
          ⟨5, Direction.outbound, "good bye"⟩],
         [⟨some "good bye", false⟩, ⟨none, true⟩, ⟨some "good bye", false⟩,
          ⟨none, true⟩, ⟨some "good bye", false⟩], 6) ∧
    getConnectionTrail (runListener oddFilter testHandler 1
      [some "I am done", some "", some "I am done", some "",
       some "I am done"]).1 2 = [] ∧
    getConnectionTrail (runListener oddFilter testHandler 1
      [some "I am done", some "", some "I am done", some "",
       some "I am done"]).1 4 = [] ∧
    getConnectionTrail (runListener oddFilter testHandler 1
      [some "I am done", some "", some "I am done", some "",
       some "I am done"]).1 3
      = [⟨3, Direction.inbound, "I am done"⟩,
         ⟨3, Direction.outbound, "good bye"⟩] := by
  refine ⟨rfl, rfl, rfl, rfl⟩

/-- The read loop reassembles the chunks into the original byte list,
regardless of the per-read maximum. -/
theorem chunks_flatten_aux (readMax : Nat) :
    ∀ (fuel : Nat) (l : List Char), l.length ≤ fuel →
      (chunks readMax l).flatten = l := by
  intro fuel
  induction fuel with
  | zero =>
    intro l hl
    cases l with
    | nil => simp [chunks]
    | cons a rest => simp at hl
  | succ m ih =>
    intro l hl
    cases l with
    | nil => simp [chunks]
    | cons a rest =>
      rw [chunks, List.flatten_cons]
      rw [ih (rest.drop (readMax - 1))
        (by simp only [List.length_drop]; simp at hl; omega)]
      rw [List.cons_append, List.take_append_drop]

/-- The read loop reassembles the chunks into the original byte list. -/
theorem chunks_flatten (readMax : Nat) (l : List Char) :
    (chunks readMax l).flatten = l :=
  chunks_flatten_aux readMax l.length l (le_refl _)

/-- Claim C8: for every request byte sequence, running the connection read
loop with any positive per-read maximum - in particular the minimum of one
byte per read - reconstructs the same request content, and the session
(the audited inbound request, the audited outbound response and the
response returned) is identical to the one of an unfragmented read of the
whole request. -/
theorem claim8_fragmented_reads (req : String) (cid : Nat)
    (h : String → String × Bool) (k : Nat) :
    readLoopData 1 req = req ∧
    sessionRun 1 cid h req = sessionWhole cid h req ∧
    sessionRun (k + 1) cid h req = sessionWhole cid h req := by
  have hdata : ∀ m : Nat, readLoopData m req = req := by
    intro m
    rw [readLoopData, chunks_flatten]
    cases req
    rfl
  refine ⟨hdata 1, ?_, ?_⟩ <;>
    rw [sessionRun, sessionWhole, hdata]

/-- A connection step on an event that delivers no request data appends
nothing to the audit trail. -/
theorem connStep_no_audit (h : String → String × Bool) (c : Conn)
    (e : ConnEvent) (hne : isDataEvent e = false) :
    (connStep h c e).2 = [] := by
  obtain ⟨cid, st, pe, te⟩ := c
  cases e with
  | byteArrival => simp [isDataEvent] at hne
  | requestComplete req => simp [isDataEvent] at hne
  | writeDone =>
    cases st <;> first
      | rfl
      | (simp only [connStep]; split <;> rfl)
  | idleFire => cases st <;> rfl
  | drainDone => cases st <;> rfl
  | stopCall => cases st <;> rfl

/-- A run made only of events that deliver no request data appends nothing
to the audit trail. -/
theorem runConn_no_audit (h : String → String × Bool) :
    ∀ (evs : List ConnEvent) (c : Conn),
      (∀ e ∈ evs, isDataEvent e = false) → (runConn h c evs).2 = [] := by
  intro evs
  induction evs with
  | nil =>
    intro c _
    rfl
  | cons e t ih =>
    intro c hall
    simp only [runConn]
    rw [connStep_no_audit h c e (hall e (by simp)), List.nil_append]
    exact ih _ (fun x hx => hall x (by simp [hx]))

/-- Claim C9: a connection that is accepted and never sends any bytes
transitions, when the idle timer fires, from IDLE to CLOSING with the
socket shut down (the peer observes EOF) and no audit entry; once the
pending I/O drains it reaches CLOSED; and over any run of events that
deliver no request data the audit trail of the connection never receives
an entry. -/
theorem claim9_idle_timeout (cid : Nat) (h : String → String × Bool)
    (evs : List ConnEvent) :
    (connStep h (acceptedConn cid) ConnEvent.idleFire).1.st
      = ConnState.closing ∧
    (connStep h (acceptedConn cid) ConnEvent.idleFire).1.peerEof = true ∧
    (connStep h (acceptedConn cid) ConnEvent.idleFire).2 = [] ∧
    (connStep h (connStep h (acceptedConn cid) ConnEvent.idleFire).1
      ConnEvent.drainDone).1.st = ConnState.closed ∧
    ((∀ e ∈ evs, isDataEvent e = false) →
      (runConn h (acceptedConn cid) evs).2 = []) :=
  ⟨rfl, rfl, rfl, rfl, fun hall => runConn_no_audit h evs (acceptedConn cid) hall⟩

/-- Claim C9, witness: connection 1 under the test handler, idle timer
firing and the socket draining: the machine ends CLOSED with the peer
shown EOF and an empty audit trail. -/
theorem claim9_idle_timeout_witness :
    (runConn testHandler (acceptedConn 1)
      [ConnEvent.idleFire, ConnEvent.drainDone]).1.st = ConnState.closed ∧
    (runConn testHandler (acceptedConn 1)
      [ConnEvent.idleFire, ConnEvent.drainDone]).1.peerEof = true ∧
    (runConn testHandler (acceptedConn 1)
      [ConnEvent.idleFire, ConnEvent.drainDone]).2 = [] := by
  have h := claim9_idle_timeout 1 testHandler
    [ConnEvent.idleFire, ConnEvent.drainDone]
  exact ⟨by decide, by decide, h.2.2.2.2 (by decide)⟩

end KeaSpec
